import Mathlib

/-!
Shallow embedding of the duty-roster assignment engine.

Dates: a `chrono::NaiveDate` is represented by its `num_days_from_ce()`
value as an `Int`; `date.weekday()` is represented by `weekdayOf`, an
injective image of the weekday (day number mod 7), which is all the code
ever observes (equality of weekdays used as map keys).

`HashMap<K, usize>` counters are represented by association lists with the
exact entry/or_default increment and decrement-and-remove-at-zero logic of
the source. Rust's `/` on signed integers (truncation toward zero) is
`Int.tdiv`; the division in the DifferentPlaceServices sentinel goes through
`i64Div`, which also records Rust's panics (zero divisor, and the overflowing
i64::MIN / -1). The `usize as i64` casts on the service counters are the
two's-complement reinterpretation `usizeToI64` of the stored usize value
`usizeVal` (release-mode wrap at 2 ^ 64), so the key computation matches the
program bit for bit also at counter values at and above 2 ^ 63, which real
runs never reach.

The shared `Rc<RefCell<GroupState>>` cells are represented by an arena:
a list with one `GroupState` per configuration group, each person holding
the index of its group's cell.
-/

/-- Weekday of a day number (injective image of chrono's weekday). -/
def weekdayOf (d : Int) : Int := d % 7

/-- Value of Rust's i64::MIN. -/
def i64Min : Int := -(2 ^ 63)

/-- Value held by a usize after a Nat-counted number of increments
(release-mode wrap at 2 ^ 64; counters in real runs stay far below). -/
def usizeVal (n : Nat) : Nat := n % 2 ^ 64

/-- Two's-complement reinterpretation `as i64` of a usize value: values from
2 ^ 63 upward become negative. -/
def usizeToI64 (n : Nat) : Int :=
  if usizeVal n < 2 ^ 63 then (usizeVal n : Int) else (usizeVal n : Int) - 2 ^ 64

/-- Rust i64 division as performed by `/`: truncating division, panicking on
a zero divisor or on the single overflowing case i64::MIN / -1; a panic is
`none`. -/
def i64Div (a b : Int) : Option Int :=
  if b = 0 ∨ (a = i64Min ∧ b = -1) then none else some (Int.tdiv a b)

/-- Lookup in an association-list counter map; absent keys read as 0,
mirroring `map.get(&k).unwrap_or(&0)`. -/
def mapGet {K : Type} [DecidableEq K] : List (K × Nat) → K → Nat
  | [], _ => 0
  | (k', v) :: rest, k => if k' = k then v else mapGet rest k

/-- Increment a counter map entry, mirroring `*map.entry(k).or_default() += 1`. -/
def mapIncr {K : Type} [DecidableEq K] : List (K × Nat) → K → List (K × Nat)
  | [], k => [(k, 1)]
  | (k', v) :: rest, k =>
      if k' = k then (k', v + 1) :: rest else (k', v) :: mapIncr rest k

/-- Decrement a counter map entry and drop it at zero, mirroring the
`if let Some(count) = map.get_mut(&k) && *count > 0` blocks of
`unregister_service`. -/
def mapDecr {K : Type} [DecidableEq K] : List (K × Nat) → K → List (K × Nat)
  | [], _ => []
  | (k', v) :: rest, k =>
      if k' = k then
        if v > 0 then (if v - 1 = 0 then rest else (k', v - 1) :: rest)
        else (k', v) :: rest
      else (k', v) :: mapDecr rest k

/-- Sum of the values of a counter map. -/
def sumVals {K : Type} (m : List (K × Nat)) : Nat := (m.map (fun e => e.2)).sum

/-- Keys of a counter map. -/
def mapKeys {K : Type} (m : List (K × Nat)) : List K := m.map (fun e => e.1)

/-- Rule enumeration from `config.rs`. -/
inductive Rule : Type where
  | FilterSamePlace
  | SortByLeastServices
  | SortByLessServicesAtSameWeekday
  | SortByLastService
  | SortByMaxDistanceInGroup
  | SortByOwnPlace
  | SortByDifferentPlaceServices
deriving DecidableEq

/-- Rules struct from `config.rs`. -/
structure Rules where
  sort : List Rule
  filter : List Rule
deriving DecidableEq

/-- Member struct from `config.rs`. -/
structure Member where
  name : String
deriving DecidableEq

/-- Group struct from `config.rs` (named GroupCfg here, `Group` being taken
by the algebra library). -/
structure GroupCfg where
  name : String
  place : String
  members : List Member
deriving DecidableEq

/-- Places struct from `config.rs`. -/
structure Places where
  places : List String
deriving DecidableEq

/-- Dates struct from `config.rs` (`from`/`to` renamed, being Lean keywords). -/
structure DatesCfg where
  fromDate : Int
  toDate : Int
  exceptions : List Int
  weekdays : List Int
deriving DecidableEq

/-- Config root from `config.rs`. -/
structure Config where
  dates : DatesCfg
  places : Places
  group : List GroupCfg
  rules : Rules
deriving DecidableEq

/-- GroupState from `person_state.rs`: the shared per-group cell. -/
structure GroupState where
  last_service : Option Int
deriving DecidableEq

/-- Arena of group cells; a person refers to its group by index. -/
abbrev GroupArena : Type := List GroupState

/-- PersonState from `person_state.rs`; `group_state` is the arena index. -/
structure PersonState where
  name : String
  place : String
  total_services : Nat
  last_service : Option Int
  weekday_counts : List (Int × Nat)
  place_counts : List (String × Nat)
  groupIdx : Nat
  different_place_services : Nat
deriving DecidableEq

/-- PersonState::new. -/
def PersonState.new (name place : String) (groupIdx : Nat) : PersonState :=
  ⟨name, place, 0, none, [], [], groupIdx, 0⟩

/-- Placeholder person used as the default of total list lookups; the engine
only ever reads in-bounds indices. -/
def dummyPerson : PersonState := PersonState.new "" "" 0

/-- PersonState::register_service: bumps the ledger and overwrites the shared
group cell's last_service. -/
def registerService (p : PersonState) (groups : GroupArena) (date : Int)
    (place : String) : PersonState × GroupArena :=
  ({ p with
      total_services := p.total_services + 1
      last_service := some date
      weekday_counts := mapIncr p.weekday_counts (weekdayOf date)
      place_counts := mapIncr p.place_counts place
      different_place_services :=
        if place ≠ p.place then p.different_place_services + 1
        else p.different_place_services },
    groups.set p.groupIdx ⟨some date⟩)

/-- PersonState::unregister_service: ledger-only inverse with clamping at
zero, unconditionally clearing last_service when it equals the date; the
group cell is not touched. -/
def unregisterService (p : PersonState) (date : Int) (place : String) :
    PersonState :=
  { p with
      total_services :=
        if p.total_services > 0 then p.total_services - 1 else p.total_services
      weekday_counts := mapDecr p.weekday_counts (weekdayOf date)
      place_counts := mapDecr p.place_counts place
      different_place_services :=
        if place ≠ p.place ∧ p.different_place_services > 0 then
          p.different_place_services - 1
        else p.different_place_services
      last_service := if p.last_service = some date then none else p.last_service }

/-- One component of PersonState::sort_key for a single rule. The usize
counters are cast `as i64` through `usizeToI64` (two's-complement wrap);
`num_days_from_ce` is an i32, whose `as i64` is exact. In the home-place
DifferentPlaceServices branch the divisor `different_place_services.max(1)
as i64` wraps to -1 at usize::MAX, where the program panics on
i64::MIN / -1; the total model returns the junk value 0 for that aborted
computation (`Option.getD`), and every theorem about this branch excludes
the panic by hypothesis. -/
def sortKeyRule (p : PersonState) (groups : GroupArena) (date : Int)
    (placeId : String) : Rule → Int
  | Rule.SortByLeastServices => usizeToI64 p.total_services
  | Rule.SortByOwnPlace => if p.place = placeId then 0 else 1
  | Rule.SortByDifferentPlaceServices =>
      if p.place ≠ placeId then usizeToI64 p.different_place_services
      else (i64Div i64Min
        (usizeToI64 (max (usizeVal p.different_place_services) 1))).getD 0
  | Rule.SortByLastService =>
      match p.last_service with
      | some d => Int.tdiv d 7
      | none => i64Min
  | Rule.SortByLessServicesAtSameWeekday =>
      usizeToI64 (mapGet p.weekday_counts (weekdayOf date))
  | Rule.SortByMaxDistanceInGroup =>
      match (groups.getD p.groupIdx ⟨none⟩).last_service with
      | some d => d
      | none => i64Min
  | Rule.FilterSamePlace => 0

/-- PersonState::sort_key: one integer per configured sort rule, in order. -/
def sortKey (p : PersonState) (groups : GroupArena) (date : Int)
    (placeId : String) (rules : Rules) : List Int :=
  rules.sort.map (sortKeyRule p groups date placeId)

/-- Lexicographic non-strict comparison of key vectors, matching the `Ord`
instance of `Vec<i64>` used by `sort_by_key`. -/
def lexLe : List Int → List Int → Bool
  | [], _ => true
  | _ :: _, [] => false
  | a :: as, b :: bs => if a < b then true else if a = b then lexLe as bs else false

/-- Lexicographic strict comparison of key vectors, matching `<` on `Vec<i64>`. -/
def lexLt : List Int → List Int → Bool
  | [], [] => false
  | [], _ :: _ => true
  | _ :: _, [] => false
  | a :: as, b :: bs => if a < b then true else if a = b then lexLt as bs else false

/-- Stable insertion step of insertion sort. -/
def orderedInsert {α : Type} (le : α → α → Bool) (x : α) : List α → List α
  | [] => [x]
  | y :: ys => if le x y then x :: y :: ys else y :: orderedInsert le x ys

/-- Stable insertion sort; `sort_by_key` in the source is Rust's stable sort,
and all stable sorts by the same total preorder produce the same list. -/
def insertionSort {α : Type} (le : α → α → Bool) : List α → List α
  | [] => []
  | x :: xs => orderedInsert le x (insertionSort le xs)

/-- Assignment record from `schedule.rs`. -/
structure Assignment where
  date : Int
  place : String
  person : String
deriving DecidableEq

/-- Helper of `create_people`: one PersonState per member, members of one
group sharing the group's arena cell (given by its running index). -/
def createPeopleAux : List GroupCfg → Nat → List PersonState
  | [], _ => []
  | g :: gs, gi =>
      g.members.map (fun m =>
        PersonState.new (m.name ++ " " ++ g.name) g.place gi)
        ++ createPeopleAux gs (gi + 1)

/-- `create_people` from `schedule.rs`. -/
def createPeople (cfg : Config) : List PersonState :=
  createPeopleAux cfg.group 0

/-- Initial group arena: one default cell per configuration group. -/
def initGroups (cfg : Config) : GroupArena :=
  cfg.group.map (fun _ => ⟨none⟩)

/-- Check that an index list is a permutation of `0, ..., n-1`: right length
and containing every index. -/
def isPermOfRange (p : List Nat) (n : Nat) : Bool :=
  p.length = n && (List.range n).all (fun k => p.contains k)

/-- Outcome of one `people.shuffle(&mut rng)` call: the externally supplied
index list rearranges the people when it is a valid permutation of the
positions (as the library shuffle always is), and is ignored otherwise. -/
def applyShuffle (perm : List Nat) (l : List PersonState) : List PersonState :=
  if isPermOfRange perm l.length then perm.map (fun k => l.getD k dummyPerson)
  else l

/-- Indices of candidate people for one slot: everyone, filtered to the slot
place being the home place iff FilterSamePlace is configured. -/
def candidateIdx (people : List PersonState) (placeId : String)
    (filterSame : Bool) : List Nat :=
  (List.range people.length).filter
    (fun i => !filterSame || decide ((people.getD i dummyPerson).place = placeId))

/-- Slot winner of `create_schedule`: stable-sort the candidates by sort_key
and take the first, as `candidates.sort_by_key(...)` and `first` do. -/
def chooseCandidate (people : List PersonState) (groups : GroupArena)
    (date : Int) (placeId : String) (rules : Rules) (filterSame : Bool) :
    Option Nat :=
  (insertionSort
    (fun i j =>
      lexLe (sortKey (people.getD i dummyPerson) groups date placeId rules)
            (sortKey (people.getD j dummyPerson) groups date placeId rules))
    (candidateIdx people placeId filterSame)).head?

/-- Running state of create_schedule. -/
structure ScheduleState where
  people : List PersonState
  groups : GroupArena
  assignments : List Assignment
deriving DecidableEq

/-- Body of the inner place loop of `create_schedule`: emit an assignment for
the chosen candidate (if any) and register the service immediately. -/
def fillPlace (rules : Rules) (filterSame : Bool) (date : Int)
    (placeId : String) (st : ScheduleState) : ScheduleState :=
  match chooseCandidate st.people st.groups date placeId rules filterSame with
  | none => st
  | some i =>
      let chosen := st.people.getD i dummyPerson
      let r := registerService chosen st.groups date placeId
      ⟨st.people.set i r.1, r.2, st.assignments ++ [⟨date, placeId, chosen.name⟩]⟩

/-- One date of `create_schedule`: fill each configured place in order. -/
def processDate (cfg : Config) (filterSame : Bool) (date : Int)
    (st : ScheduleState) : ScheduleState :=
  cfg.places.places.foldl (fun s pl => fillPlace cfg.rules filterSame date pl s) st

/-- Date loop of `create_schedule`: skip exception dates, otherwise shuffle
the people and fill the places. -/
def createScheduleFrom (cfg : Config) (sh : Nat → List Nat) :
    List Int → Nat → ScheduleState → ScheduleState
  | [], _, st => st
  | d :: ds, i, st =>
      if d ∈ cfg.dates.exceptions then createScheduleFrom cfg sh ds (i + 1) st
      else
        createScheduleFrom cfg sh ds (i + 1)
          (processDate cfg (cfg.rules.filter.contains Rule.FilterSamePlace) d
            ⟨applyShuffle (sh i) st.people, st.groups, st.assignments⟩)

/-- `create_schedule` from `schedule.rs`, with the per-date shuffle outcomes
supplied by `sh`. -/
def createSchedule (dates : List Int) (cfg : Config) (sh : Nat → List Nat) :
    List Assignment × List PersonState :=
  let st := createScheduleFrom cfg sh dates 0
    ⟨createPeople cfg, initGroups cfg, []⟩
  (st.assignments, st.people)

/-- First index satisfying a predicate, mirroring `iter().position(...)`. -/
def findIdxP {α : Type} (pred : α → Bool) : List α → Option Nat
  | [] => none
  | x :: xs => if pred x then some 0 else (findIdxP pred xs).map (fun i => i + 1)

/-- Found flags of the first loop of `swap_assignments`: an entry matching
slot 1 sets the first flag, an entry not matching slot 1 but matching slot 2
sets the second (the source's else-if); the early break does not change the
final flags. -/
def swapFound (assignments : List Assignment) (date1 : Int) (place1 : String)
    (date2 : Int) (place2 : String) : Bool × Bool :=
  assignments.foldl
    (fun f a =>
      if a.date = date1 ∧ a.place = place1 then (true, f.2)
      else if a.date = date2 ∧ a.place = place2 then (f.1, true)
      else f)
    (false, false)

/-- Assignment rewrite of `swap_assignments` when both slots were found: the
slot-1 entry receives person2, the slot-2 entry receives person1. -/
def swapUpdateAssignments (assignments : List Assignment) (date1 : Int)
    (place1 : String) (person1 : String) (date2 : Int) (place2 : String)
    (person2 : String) : List Assignment :=
  assignments.map (fun a =>
    if a.date = date1 ∧ a.place = place1 then { a with person := person2 }
    else if a.date = date2 ∧ a.place = place2 then { a with person := person1 }
    else a)

/-- Unregister the service of the person at one index, in place. -/
def unregAt (people : List PersonState) (i : Nat) (d : Int) (pl : String) :
    List PersonState :=
  people.set i (unregisterService (people.getD i dummyPerson) d pl)

/-- Register a service for the person at one index, in place, together with
the written group arena. -/
def regAt (people : List PersonState) (groups : GroupArena) (i : Nat) (d : Int)
    (pl : String) : List PersonState × GroupArena :=
  (people.set i (registerService (people.getD i dummyPerson) groups d pl).1,
    (registerService (people.getD i dummyPerson) groups d pl).2)

/-- Ledger rewrite of `swap_assignments` once both people were located:
unregister each person's old slot, then register their new slot (the second
registration sees the arena written by the first). -/
def swapPeople (people : List PersonState) (groups : GroupArena) (date1 : Int)
    (place1 : String) (date2 : Int) (place2 : String) (i1 i2 : Nat) :
    List PersonState × GroupArena :=
  regAt
    (regAt (unregAt (unregAt people i1 date1 place1) i2 date2 place2)
      groups i1 date2 place2).1
    (regAt (unregAt (unregAt people i1 date1 place1) i2 date2 place2)
      groups i1 date2 place2).2
    i2 date1 place1

/-- `swap_assignments` from `gui/assignment.rs`, returning the flag together
with the updated assignment list, people and group arena. -/
def swapAssignments (assignments : List Assignment) (people : List PersonState)
    (groups : GroupArena) (date1 : Int) (place1 : String) (person1 : String)
    (date2 : Int) (place2 : String) (person2 : String) :
    Bool × List Assignment × List PersonState × GroupArena :=
  ((swapFound assignments date1 place1 date2 place2).1
      && (swapFound assignments date1 place1 date2 place2).2,
    if (swapFound assignments date1 place1 date2 place2).1
        && (swapFound assignments date1 place1 date2 place2).2 then
      swapUpdateAssignments assignments date1 place1 person1 date2 place2 person2
    else assignments,
    if (swapFound assignments date1 place1 date2 place2).1
        && (swapFound assignments date1 place1 date2 place2).2 then
      match findIdxP (fun p => decide (p.name = person1)) people,
            findIdxP (fun p => decide (p.name = person2)) people with
      | some i1, some i2 => swapPeople people groups date1 place1 date2 place2 i1 i2
      | _, _ => (people, groups)
    else (people, groups))

/-! General list lemmas used throughout. -/

theorem getD_set_self {α : Type} (d : α) :
    ∀ (l : List α) (i : Nat) (a : α), i < l.length → (l.set i a).getD i d = a
  | [], i, a, h => by simp at h
  | x :: xs, 0, a, _ => rfl
  | x :: xs, i + 1, a, h => by
      simpa using getD_set_self d xs i a (by simpa using h)

theorem getD_set_ne {α : Type} (d : α) :
    ∀ (l : List α) (i j : Nat) (a : α), i ≠ j → (l.set i a).getD j d = l.getD j d
  | [], _, _, _, _ => by simp
  | x :: xs, 0, 0, a, h => absurd rfl h
  | x :: xs, 0, j + 1, a, _ => by simp
  | x :: xs, i + 1, 0, a, _ => by simp
  | x :: xs, i + 1, j + 1, a, h => by
      simpa using getD_set_ne d xs i j a (fun hc => h (by omega))

theorem sumMap_set {α : Type} (f : α → Nat) (d : α) :
    ∀ (l : List α) (i : Nat) (a : α), i < l.length →
      (((l.set i a).map f).sum + f (l.getD i d) = (l.map f).sum + f a)
  | [], i, a, h => by simp at h
  | x :: xs, 0, a, _ => by simp [Nat.add_comm, Nat.add_left_comm]
  | x :: xs, i + 1, a, h => by
      have ih := sumMap_set f d xs i a (by simpa using h)
      simp only [List.set, List.map_cons, List.sum_cons, List.getD_cons_succ]
      omega

theorem head?_mem {α : Type} {l : List α} {a : α} (h : l.head? = some a) : a ∈ l := by
  cases l with
  | nil => simp at h
  | cons x xs =>
      simp only [List.head?_cons, Option.some.injEq] at h
      exact h ▸ List.mem_cons_self x xs

/-! Properties of the lexicographic key comparisons. -/

theorem lexLe_refl : ∀ k : List Int, lexLe k k = true
  | [] => rfl
  | a :: as => by simp [lexLe, lexLe_refl as]

theorem lexLe_total : ∀ a b : List Int, lexLe a b = false → lexLe b a = true
  | [], _, h => by simp [lexLe] at h
  | _ :: _, [], _ => rfl
  | x :: xs, y :: ys, h => by
      simp only [lexLe] at h ⊢
      by_cases hxy : x < y
      · simp [hxy] at h
      · by_cases hyx : y < x
        · simp [hyx]
        · have hxy2 : x = y := by omega
          subst hxy2
          simp only [if_neg hxy, if_pos rfl] at h ⊢
          exact lexLe_total xs ys h

theorem lexLe_trans :
    ∀ a b c : List Int, lexLe a b = true → lexLe b c = true → lexLe a c = true
  | [], _, _, _, _ => rfl
  | _ :: _, [], _, h1, _ => by simp [lexLe] at h1
  | _ :: _, _ :: _, [], _, h2 => by simp [lexLe] at h2
  | x :: xs, y :: ys, z :: zs, h1, h2 => by
      simp only [lexLe] at h1 h2 ⊢
      by_cases hxy : x < y <;> by_cases hyz : y < z
      · simp [show x < z by omega]
      · by_cases hyz2 : y = z
        · simp [show x < z by omega]
        · simp [hyz, hyz2] at h2
      · by_cases hxy2 : x = y
        · simp [show x < z by omega]
        · simp [hxy, hxy2] at h1
      · by_cases hxy2 : x = y
        · by_cases hyz2 : y = z
          · subst hxy2
            subst hyz2
            simp only [if_neg hxy, if_pos rfl] at h1 h2 ⊢
            exact lexLe_trans xs ys zs h1 h2
          · simp [hyz, hyz2] at h2
        · simp [hxy, hxy2] at h1

/-! Stable insertion sort facts. -/

theorem orderedInsert_perm {α : Type} (le : α → α → Bool) (x : α) :
    ∀ l : List α, (orderedInsert le x l).Perm (x :: l)
  | [] => List.Perm.refl _
  | y :: ys => by
      unfold orderedInsert
      split
      · exact List.Perm.refl _
      · exact ((orderedInsert_perm le x ys).cons y).trans (List.Perm.swap x y ys)

theorem insertionSort_perm {α : Type} (le : α → α → Bool) :
    ∀ l : List α, (insertionSort le l).Perm l
  | [] => List.Perm.refl _
  | x :: xs =>
      (orderedInsert_perm le x (insertionSort le xs)).trans
        ((insertionSort_perm le xs).cons x)

theorem orderedInsert_head {α : Type} (le : α → α → Bool) (x y : α) (ys : List α) :
    (orderedInsert le x (y :: ys)).head? = some (if le x y then x else y) := by
  unfold orderedInsert
  split <;> simp_all

theorem find_conj {α : Type} (p r : α → Bool) :
    ∀ (l : List α) (m : α), l.find? p = some m → r m = true →
      l.find? (fun a => r a && p a) = some m
  | [], m, h, _ => by simp at h
  | x :: l, m, h, hr => by
      by_cases hp : p x
      · rw [List.find?_cons_of_pos _ hp] at h
        have hm : x = m := by simpa using h
        subst hm
        exact List.find?_cons_of_pos _ (by simp [hp, hr])
      · rw [List.find?_cons_of_neg _ (by simpa using hp)] at h
        rw [List.find?_cons_of_neg _ (by simp [hp])]
        exact find_conj p r l m h hr

theorem head_insertionSort {α : Type} (le : α → α → Bool)
    (hrefl : ∀ a, le a a = true)
    (htrans : ∀ a b c, le a b = true → le b c = true → le a c = true)
    (htotal : ∀ a b, le a b = false → le b a = true) :
    ∀ l : List α,
      (insertionSort le l).head? = l.find? (fun a => l.all (le a))
  | [] => rfl
  | x :: xs => by
      have ih := head_insertionSort le hrefl htrans htotal xs
      show (orderedInsert le x (insertionSort le xs)).head? = _
      cases hxs : insertionSort le xs with
      | nil =>
          have hempty : xs = [] := by
            have := (insertionSort_perm le xs).length_eq
            rw [hxs] at this
            exact List.length_eq_zero.mp this.symm
          subst hempty
          simp [orderedInsert, hrefl]
      | cons m t =>
          rw [hxs] at ih
          simp only [List.head?_cons] at ih
          have hmfacts := List.find?_some ih.symm
          have hmmem : m ∈ xs := List.mem_of_find?_eq_some ih.symm
          have hmall : ∀ b ∈ xs, le m b = true := by
            intro b hb
            exact List.all_eq_true.mp hmfacts b hb
          rw [orderedInsert_head]
          by_cases hxm : le x m
          · have hpred : (fun a => (x :: xs).all (le a)) x = true := by
              simp only [List.all_cons, Bool.and_eq_true]
              exact ⟨hrefl x, List.all_eq_true.mpr
                (fun b hb => htrans x m b hxm (hmall b hb))⟩
            rw [@List.find?_cons_of_pos _ (fun a => (x :: xs).all (le a)) x xs hpred,
              if_pos hxm]
          · have hxall : xs.all (le x) = false := by
              by_contra hc
              have : ∀ b ∈ xs, le x b = true :=
                List.all_eq_true.mp (Bool.of_not_eq_false hc)
              exact absurd (this m hmmem) (by simp [hxm])
            have hpred : ¬ (fun a => (x :: xs).all (le a)) x = true := by
              simp [List.all_cons, hxall]
            rw [@List.find?_cons_of_neg _ (fun a => (x :: xs).all (le a)) x xs hpred,
              if_neg hxm]
            have hconj : xs.find? (fun a => le a x && xs.all (le a)) = some m :=
              find_conj (fun a => xs.all (le a)) (fun a => le a x) xs m ih.symm
                (htotal x m (by simpa using hxm))
            rw [show (fun a => (x :: xs).all (le a)) = (fun a => le a x && xs.all (le a))
              from funext (fun a => by simp [List.all_cons])]
            exact hconj.symm

/-- Modelled from the spec's words, for the refinement claim C2: the
candidate at the earliest position (in post-shuffle order) whose rank key is
lexicographically minimal among all candidates. -/
def specFirstMin (people : List PersonState) (groups : GroupArena) (date : Int)
    (placeId : String) (rules : Rules) (filterSame : Bool) : Option Nat :=
  let cand := candidateIdx people placeId filterSame
  cand.find? (fun i => cand.all (fun j =>
    lexLe (sortKey (people.getD i dummyPerson) groups date placeId rules)
          (sortKey (people.getD j dummyPerson) groups date placeId rules)))

/-- C2: for every slot, the source's selection (stable sort by sort_key, then
first element) returns exactly the candidate at the earliest post-shuffle
position whose rank key is lexicographically minimal; in particular exact-key
ties go to the earliest candidate in shuffled order. -/
theorem choose_candidate_eq_spec_first_min (people : List PersonState)
    (groups : GroupArena) (date : Int) (placeId : String) (rules : Rules)
    (filterSame : Bool) :
    chooseCandidate people groups date placeId rules filterSame =
      specFirstMin people groups date placeId rules filterSame := by
  unfold chooseCandidate specFirstMin
  exact head_insertionSort
    (fun i j =>
      lexLe (sortKey (people.getD i dummyPerson) groups date placeId rules)
            (sortKey (people.getD j dummyPerson) groups date placeId rules))
    (fun _ => lexLe_refl _) (fun _ _ _ => lexLe_trans _ _ _)
    (fun _ _ => lexLe_total _ _) (candidateIdx people placeId filterSame)

/-! Counter map arithmetic. -/

theorem sumVals_mapIncr {K : Type} [DecidableEq K] :
    ∀ (m : List (K × Nat)) (k : K), sumVals (mapIncr m k) = sumVals m + 1
  | [], k => rfl
  | (k', v) :: rest, k => by
      by_cases h : k' = k
      · simp only [mapIncr, if_pos h, sumVals, List.map_cons, List.sum_cons]
        omega
      · simp only [mapIncr, if_neg h, sumVals, List.map_cons, List.sum_cons]
        have := sumVals_mapIncr rest k
        simp only [sumVals] at this
        omega

theorem sumVals_mapDecr {K : Type} [DecidableEq K] :
    ∀ (m : List (K × Nat)) (k : K), 1 ≤ mapGet m k →
      sumVals (mapDecr m k) + 1 = sumVals m
  | [], k, h => by simp [mapGet] at h
  | (k', v) :: rest, k, h => by
      by_cases hk : k' = k
      · have hv : 1 ≤ v := by simpa [mapGet, hk] using h
        by_cases hv1 : v - 1 = 0
        · simp only [mapDecr, if_pos hk, if_pos (by omega : v > 0), if_pos hv1,
            sumVals, List.map_cons, List.sum_cons]
          omega
        · simp only [mapDecr, if_pos hk, if_pos (by omega : v > 0), if_neg hv1,
            sumVals, List.map_cons, List.sum_cons]
          omega
      · have hrest : 1 ≤ mapGet rest k := by simpa [mapGet, hk] using h
        have := sumVals_mapDecr rest k hrest
        simp only [mapDecr, if_neg hk, sumVals, List.map_cons, List.sum_cons]
        simp only [sumVals] at this
        omega

theorem mapGet_mapIncr_self {K : Type} [DecidableEq K] :
    ∀ (m : List (K × Nat)) (k : K), mapGet (mapIncr m k) k = mapGet m k + 1
  | [], k => by simp [mapIncr, mapGet]
  | (k', v) :: rest, k => by
      by_cases h : k' = k
      · simp [mapIncr, mapGet, h]
      · simp [mapIncr, mapGet, h, mapGet_mapIncr_self rest k]

theorem mapGet_mapIncr_ne {K : Type} [DecidableEq K] :
    ∀ (m : List (K × Nat)) (k k' : K), k ≠ k' →
      mapGet (mapIncr m k) k' = mapGet m k'
  | [], k, k', h => by simp [mapIncr, mapGet, h]
  | (k0, v) :: rest, k, k', h => by
      by_cases h0 : k0 = k
      · simp [mapIncr, mapGet, h0, h]
      · simp only [mapIncr, if_neg h0, mapGet]
        by_cases h1 : k0 = k'
        · simp [h1]
        · simp [h1, mapGet_mapIncr_ne rest k k' h]

/-! Ledger step effects of register_service. -/

theorem registerService_total (p : PersonState) (g : GroupArena) (d : Int)
    (pl : String) :
    (registerService p g d pl).1.total_services = p.total_services + 1 := rfl

theorem registerService_wsum (p : PersonState) (g : GroupArena) (d : Int)
    (pl : String) :
    sumVals (registerService p g d pl).1.weekday_counts
      = sumVals p.weekday_counts + 1 :=
  sumVals_mapIncr _ _

theorem registerService_psum (p : PersonState) (g : GroupArena) (d : Int)
    (pl : String) :
    sumVals (registerService p g d pl).1.place_counts
      = sumVals p.place_counts + 1 :=
  sumVals_mapIncr _ _

/-! Conservation invariant of the engine loop. -/

/-- The three ledger sums of a schedule state all equal the number of
assignments emitted so far. -/
def Conserved (st : ScheduleState) : Prop :=
  (st.people.map (fun p => p.total_services)).sum = st.assignments.length ∧
  (st.people.map (fun p => sumVals p.weekday_counts)).sum = st.assignments.length ∧
  (st.people.map (fun p => sumVals p.place_counts)).sum = st.assignments.length

theorem chooseCandidate_lt {people : List PersonState} {groups : GroupArena}
    {date : Int} {placeId : String} {rules : Rules} {filterSame : Bool} {i : Nat}
    (h : chooseCandidate people groups date placeId rules filterSame = some i) :
    i < people.length := by
  have hmem : i ∈ candidateIdx people placeId filterSame :=
    (insertionSort_perm _ _).mem_iff.mp (head?_mem h)
  have := List.mem_range.mp (List.mem_filter.mp hmem).1
  exact this

theorem sum_set_incr (f : PersonState → Nat) (l : List PersonState) (i : Nat)
    (q : PersonState) (h : i < l.length)
    (hf : f q = f (l.getD i dummyPerson) + 1) :
    ((l.set i q).map f).sum = (l.map f).sum + 1 := by
  have := sumMap_set f dummyPerson l i q h
  omega

theorem fillPlace_none {rules : Rules} {filterSame : Bool} {date : Int}
    {placeId : String} {st : ScheduleState}
    (h : chooseCandidate st.people st.groups date placeId rules filterSame = none) :
    fillPlace rules filterSame date placeId st = st := by
  unfold fillPlace
  rw [h]

theorem fillPlace_some {rules : Rules} {filterSame : Bool} {date : Int}
    {placeId : String} {st : ScheduleState} {i : Nat}
    (h : chooseCandidate st.people st.groups date placeId rules filterSame = some i) :
    fillPlace rules filterSame date placeId st =
      ⟨st.people.set i
          (registerService (st.people.getD i dummyPerson) st.groups date placeId).1,
        (registerService (st.people.getD i dummyPerson) st.groups date placeId).2,
        st.assignments
          ++ [⟨date, placeId, (st.people.getD i dummyPerson).name⟩]⟩ := by
  unfold fillPlace
  rw [h]

theorem fillPlace_conserved (rules : Rules) (filterSame : Bool) (date : Int)
    (placeId : String) (st : ScheduleState) (h : Conserved st) :
    Conserved (fillPlace rules filterSame date placeId st) := by
  cases hc : chooseCandidate st.people st.groups date placeId rules filterSame with
  | none => rw [fillPlace_none hc]; exact h
  | some i =>
      rw [fillPlace_some hc]
      have hlt := chooseCandidate_lt hc
      obtain ⟨h1, h2, h3⟩ := h
      refine ⟨?_, ?_, ?_⟩ <;>
        simp only [List.length_append, List.length_cons, List.length_nil]
      · rw [sum_set_incr (fun p => p.total_services) _ _ _ hlt
          (registerService_total _ _ _ _)]
        omega
      · rw [sum_set_incr (fun p => sumVals p.weekday_counts) _ _ _ hlt
          (registerService_wsum _ _ _ _)]
        omega
      · rw [sum_set_incr (fun p => sumVals p.place_counts) _ _ _ hlt
          (registerService_psum _ _ _ _)]
        omega

theorem foldl_fillPlace_conserved (rules : Rules) (filterSame : Bool)
    (date : Int) :
    ∀ (places : List String) (st : ScheduleState), Conserved st →
      Conserved (places.foldl
        (fun s pl => fillPlace rules filterSame date pl s) st)
  | [], _, h => h
  | pl :: pls, st, h =>
      foldl_fillPlace_conserved rules filterSame date pls _
        (fillPlace_conserved rules filterSame date pl st h)

theorem processDate_conserved (cfg : Config) (filterSame : Bool) (date : Int)
    (st : ScheduleState) (h : Conserved st) :
    Conserved (processDate cfg filterSame date st) :=
  foldl_fillPlace_conserved cfg.rules filterSame date cfg.places.places st h

/-! The shuffle permutes the people and so preserves all ledger sums. -/

theorem isPermOfRange_perm {p : List Nat} {n : Nat}
    (h : isPermOfRange p n = true) : p.Perm (List.range n) := by
  unfold isPermOfRange at h
  obtain ⟨hlen, hall⟩ := Bool.and_eq_true_iff.mp h
  have hlen2 : p.length = n := by simpa using hlen
  have hsub : List.range n ⊆ p := by
    intro k hk
    have := List.all_eq_true.mp hall k hk
    simpa [List.contains] using this
  have hsubperm := List.subperm_of_subset (List.nodup_range n) hsub
  exact (List.Subperm.perm_of_length_le hsubperm (by simp [hlen2])).symm

theorem map_getD_range {α : Type} (d : α) :
    ∀ l : List α, (List.range l.length).map (fun k => l.getD k d) = l
  | [] => rfl
  | x :: xs => by
      rw [List.length_cons, List.range_succ_eq_map, List.map_cons,
        List.map_map]
      have : ((fun k => (x :: xs).getD k d) ∘ Nat.succ)
          = fun k => xs.getD k d := by
        funext k
        simp
      rw [this, map_getD_range d xs]
      rfl

theorem applyShuffle_perm (perm : List Nat) (l : List PersonState) :
    (applyShuffle perm l).Perm l := by
  unfold applyShuffle
  split
  · next h =>
      have hp := isPermOfRange_perm h
      have := hp.map (fun k => l.getD k dummyPerson)
      rw [map_getD_range dummyPerson l] at this
      exact this
  · exact List.Perm.refl l

theorem applyShuffle_length (perm : List Nat) (l : List PersonState) :
    (applyShuffle perm l).length = l.length :=
  (applyShuffle_perm perm l).length_eq

theorem applyShuffle_sum (f : PersonState → Nat) (perm : List Nat)
    (l : List PersonState) :
    ((applyShuffle perm l).map f).sum = (l.map f).sum :=
  ((applyShuffle_perm perm l).map f).sum_eq

theorem createScheduleFrom_conserved (cfg : Config) (sh : Nat → List Nat) :
    ∀ (dates : List Int) (i : Nat) (st : ScheduleState), Conserved st →
      Conserved (createScheduleFrom cfg sh dates i st)
  | [], _, _, h => h
  | d :: ds, i, st, h => by
      unfold createScheduleFrom
      split
      · exact createScheduleFrom_conserved cfg sh ds (i + 1) st h
      · refine createScheduleFrom_conserved cfg sh ds (i + 1) _
          (processDate_conserved _ _ _ _ ?_)
        obtain ⟨h1, h2, h3⟩ := h
        exact ⟨(applyShuffle_sum _ _ _).trans h1,
          (applyShuffle_sum _ _ _).trans h2,
          (applyShuffle_sum _ _ _).trans h3⟩

theorem createPeopleAux_zero (f : PersonState → Nat)
    (hf : ∀ n pl g, f (PersonState.new n pl g) = 0) :
    ∀ (gs : List GroupCfg) (gi : Nat), ((createPeopleAux gs gi).map f).sum = 0
  | [], _ => rfl
  | g :: gs, gi => by
      simp only [createPeopleAux, List.map_append, List.sum_append,
        List.map_map]
      rw [createPeopleAux_zero f hf gs (gi + 1)]
      have : ∀ x ∈ g.members.map ((f ∘ fun m =>
          PersonState.new (m.name ++ " " ++ g.name) g.place gi)), x = 0 := by
        intro x hx
        obtain ⟨m, _, hm⟩ := List.mem_map.mp hx
        simpa [hf] using hm.symm
      rw [List.sum_eq_zero this]

/-- C1: conservation. For every configuration, date list and outcome of the
per-date shuffles, the sum over the returned people of total_services, of all
weekday_counts values, and of all place_counts values, each equals the number
of returned assignments. -/
theorem create_schedule_conservation (dates : List Int) (cfg : Config)
    (sh : Nat → List Nat) :
    ((createSchedule dates cfg sh).2.map (fun p => p.total_services)).sum
        = (createSchedule dates cfg sh).1.length ∧
    ((createSchedule dates cfg sh).2.map (fun p => sumVals p.weekday_counts)).sum
        = (createSchedule dates cfg sh).1.length ∧
    ((createSchedule dates cfg sh).2.map (fun p => sumVals p.place_counts)).sum
        = (createSchedule dates cfg sh).1.length := by
  have hinit : Conserved ⟨createPeople cfg, initGroups cfg, []⟩ := by
    refine ⟨?_, ?_, ?_⟩ <;>
      simpa [createPeople] using createPeopleAux_zero _ (by intros; rfl) cfg.group 0
  have := createScheduleFrom_conserved cfg sh dates 0 _ hinit
  exact this

/-! Exception respect (C7). -/

theorem fillPlace_mem_assignments {rules : Rules} {filterSame : Bool}
    {date : Int} {placeId : String} {st : ScheduleState} {a : Assignment}
    (ha : a ∈ (fillPlace rules filterSame date placeId st).assignments) :
    a ∈ st.assignments ∨ a.date = date := by
  cases hc : chooseCandidate st.people st.groups date placeId rules filterSame with
  | none => rw [fillPlace_none hc] at ha; exact Or.inl ha
  | some i =>
      rw [fillPlace_some hc] at ha
      rcases List.mem_append.mp ha with h | h
      · exact Or.inl h
      · simp only [List.mem_singleton] at h
        subst h
        exact Or.inr rfl

theorem foldl_fillPlace_mem (rules : Rules) (filterSame : Bool) (date : Int) :
    ∀ (places : List String) (st : ScheduleState) (a : Assignment),
      a ∈ (places.foldl
          (fun s pl => fillPlace rules filterSame date pl s) st).assignments →
      a ∈ st.assignments ∨ a.date = date
  | [], _, _, ha => Or.inl ha
  | pl :: pls, st, a, ha => by
      rcases foldl_fillPlace_mem rules filterSame date pls _ a ha with h | h
      · exact fillPlace_mem_assignments h
      · exact Or.inr h

theorem createScheduleFrom_exceptions (cfg : Config) (sh : Nat → List Nat) :
    ∀ (dates : List Int) (i : Nat) (st : ScheduleState),
      (∀ a ∈ st.assignments, a.date ∉ cfg.dates.exceptions) →
      ∀ a ∈ (createScheduleFrom cfg sh dates i st).assignments,
        a.date ∉ cfg.dates.exceptions
  | [], _, _, h => h
  | d :: ds, i, st, h => by
      unfold createScheduleFrom
      split
      · exact createScheduleFrom_exceptions cfg sh ds (i + 1) st h
      · next hd =>
          refine createScheduleFrom_exceptions cfg sh ds (i + 1) _ ?_
          intro a ha
          rcases foldl_fillPlace_mem cfg.rules
              (cfg.rules.filter.contains Rule.FilterSamePlace) d
              cfg.places.places _ a ha with hmem | hdate
          · exact h a hmem
          · rw [hdate]; exact hd

/-- C7: no assignment returned by create_schedule carries a date from the
configured exception list; exception dates produce no assignments at all. -/
theorem exception_respect (dates : List Int) (cfg : Config)
    (sh : Nat → List Nat) (a : Assignment)
    (ha : a ∈ (createSchedule dates cfg sh).1) :
    a.date ∉ cfg.dates.exceptions :=
  createScheduleFrom_exceptions cfg sh dates 0
    ⟨createPeople cfg, initGroups cfg, []⟩ (by intro b hb; simp at hb) a ha

/-! Full assignment count when FilterSamePlace is off (C10). -/

theorem candidateIdx_no_filter (people : List PersonState) (placeId : String) :
    candidateIdx people placeId false = List.range people.length := by
  unfold candidateIdx
  simp

theorem chooseCandidate_no_filter_isSome (people : List PersonState)
    (groups : GroupArena) (date : Int) (placeId : String) (rules : Rules)
    (hne : people ≠ []) :
    ∃ i, chooseCandidate people groups date placeId rules false = some i := by
  unfold chooseCandidate
  rw [candidateIdx_no_filter]
  have hlen : (insertionSort
      (fun i j =>
        lexLe (sortKey (people.getD i dummyPerson) groups date placeId rules)
              (sortKey (people.getD j dummyPerson) groups date placeId rules))
      (List.range people.length)).length = people.length := by
    rw [(insertionSort_perm _ _).length_eq, List.length_range]
  cases hs : insertionSort
      (fun i j =>
        lexLe (sortKey (people.getD i dummyPerson) groups date placeId rules)
              (sortKey (people.getD j dummyPerson) groups date placeId rules))
      (List.range people.length) with
  | nil =>
      rw [hs] at hlen
      exact absurd (List.length_eq_zero.mp hlen.symm) hne
  | cons j t => exact ⟨j, rfl⟩

theorem fillPlace_people_length (rules : Rules) (filterSame : Bool) (date : Int)
    (placeId : String) (st : ScheduleState) :
    (fillPlace rules filterSame date placeId st).people.length
      = st.people.length := by
  cases hc : chooseCandidate st.people st.groups date placeId rules filterSame with
  | none => rw [fillPlace_none hc]
  | some i => rw [fillPlace_some hc]; exact List.length_set ..

theorem fillPlace_no_filter_count (rules : Rules) (date : Int)
    (placeId : String) (st : ScheduleState) (hne : st.people ≠ []) :
    (fillPlace rules false date placeId st).assignments.length
      = st.assignments.length + 1 := by
  obtain ⟨i, hi⟩ :=
    chooseCandidate_no_filter_isSome st.people st.groups date placeId rules hne
  rw [fillPlace_some hi]
  simp

theorem foldl_fillPlace_no_filter_count (rules : Rules) (date : Int) :
    ∀ (places : List String) (st : ScheduleState), st.people ≠ [] →
      ((places.foldl (fun s pl => fillPlace rules false date pl s) st).people.length
          = st.people.length ∧
        (places.foldl (fun s pl => fillPlace rules false date pl s) st).assignments.length
          = st.assignments.length + places.length)
  | [], _, _ => ⟨rfl, rfl⟩
  | pl :: pls, st, hne => by
      have hne2 : (fillPlace rules false date pl st).people ≠ [] := by
        intro hcon
        have := fillPlace_people_length rules false date pl st
        rw [hcon] at this
        exact hne (List.length_eq_zero.mp this.symm)
      obtain ⟨ha, hb⟩ :=
        foldl_fillPlace_no_filter_count rules date pls
          (fillPlace rules false date pl st) hne2
      refine ⟨?_, ?_⟩
      · simp only [List.foldl_cons]
        rw [ha, fillPlace_people_length]
      · simp only [List.foldl_cons, List.length_cons]
        rw [hb, fillPlace_no_filter_count rules date pl st hne]
        omega

theorem createScheduleFrom_no_filter_count (cfg : Config) (sh : Nat → List Nat)
    (hf : cfg.rules.filter.contains Rule.FilterSamePlace = false) :
    ∀ (dates : List Int) (i : Nat) (st : ScheduleState), st.people ≠ [] →
      (createScheduleFrom cfg sh dates i st).assignments.length
        = st.assignments.length
          + (dates.filter (fun d => decide (d ∉ cfg.dates.exceptions))).length
              * cfg.places.places.length
  | [], _, _, _ => by simp [createScheduleFrom]
  | d :: ds, i, st, hne => by
      unfold createScheduleFrom
      split
      · next hd =>
          rw [createScheduleFrom_no_filter_count cfg sh hf ds (i + 1) st hne]
          simp [List.filter_cons, hd]
      · next hd =>
          set st1 : ScheduleState :=
            ⟨applyShuffle (sh i) st.people, st.groups, st.assignments⟩ with hst1
          have hne1 : st1.people ≠ [] := by
            intro hcon
            have := applyShuffle_length (sh i) st.people
            rw [hst1] at hcon
            simp only at hcon
            rw [hcon] at this
            exact hne (List.length_eq_zero.mp this.symm)
          rw [hf]
          obtain ⟨hp, hasg⟩ :=
            foldl_fillPlace_no_filter_count cfg.rules d cfg.places.places st1 hne1
          have hne2 : (processDate cfg false d st1).people ≠ [] := by
            intro hcon
            unfold processDate at hcon
            rw [hcon] at hp
            exact hne1 (List.length_eq_zero.mp hp.symm)
          rw [createScheduleFrom_no_filter_count cfg sh hf ds (i + 1) _ hne2]
          unfold processDate
          rw [hasg]
          simp only [List.filter_cons, decide_eq_true_eq]
          rw [if_pos (by exact hd)]
          simp only [List.length_cons]
          ring

theorem createPeopleAux_pos :
    ∀ (gs : List GroupCfg) (gi : Nat), (∃ g ∈ gs, g.members ≠ []) →
      createPeopleAux gs gi ≠ []
  | [], _, h => by simp at h
  | g :: gs, gi, h => by
      unfold createPeopleAux
      rcases h with ⟨g', hg', hne⟩
      rcases List.mem_cons.mp hg' with h1 | h1
      · subst h1
        intro hcon
        rcases List.append_eq_nil.mp hcon with ⟨hm, _⟩
        exact hne (List.map_eq_nil_iff.mp hm)
      · intro hcon
        rcases List.append_eq_nil.mp hcon with ⟨_, hrest⟩
        exact createPeopleAux_pos gs (gi + 1) ⟨g', h1, hne⟩ hrest

/-- C10: with FilterSamePlace not among the filter rules and at least one
group member configured, no slot is left unassigned: the number of returned
assignments equals the number of non-exception input dates times the number
of configured places, for every shuffle outcome. -/
theorem full_assignment_count (dates : List Int) (cfg : Config)
    (sh : Nat → List Nat) (hf : Rule.FilterSamePlace ∉ cfg.rules.filter)
    (hm : ∃ g ∈ cfg.group, g.members ≠ []) :
    (createSchedule dates cfg sh).1.length
      = (dates.filter (fun d => decide (d ∉ cfg.dates.exceptions))).length
          * cfg.places.places.length := by
  have hc : cfg.rules.filter.contains Rule.FilterSamePlace = false := by
    simp [hf]
  have hne : createPeople cfg ≠ [] := createPeopleAux_pos cfg.group 0 hm
  have := createScheduleFrom_no_filter_count cfg sh hc dates 0
    ⟨createPeople cfg, initGroups cfg, []⟩ hne
  simpa using this

/-! Key comparison on singleton key vectors. -/

theorem lexLt_singleton (a b : Int) : lexLt [a] [b] = decide (a < b) := by
  by_cases h1 : a < b
  · simp [lexLt, h1]
  · by_cases h2 : a = b
    · simp [lexLt, h1, h2]
    · simp [lexLt, h1, h2]

theorem lexLe_singleton (a b : Int) : lexLe [a] [b] = decide (a ≤ b) := by
  by_cases h1 : a < b
  · simp [lexLe, h1]
    omega
  · by_cases h2 : a = b
    · simp [lexLe, h1, h2]
    · simp [lexLe, h1, h2]
      omega

/-! Arithmetic of the DifferentPlaceServices sentinel value. -/

theorem i64Min_tdiv_le_neg_one (d : Nat) (h1 : 1 ≤ d) (h2 : d ≤ 2 ^ 63) :
    Int.tdiv i64Min (d : Int) ≤ -1 := by
  unfold i64Min
  rw [Int.neg_tdiv]
  have e : ((2 : Int) ^ 63) = ((2 ^ 63 : Nat) : Int) := by norm_num
  rw [e, ← Int.ofNat_tdiv]
  have := (Nat.one_le_div_iff (by omega : 0 < d)).mpr h2
  omega

theorem i64Min_tdiv_mono (d1 d2 : Nat) (h1 : 1 ≤ d1) (h12 : d1 ≤ d2) :
    Int.tdiv i64Min (d1 : Int) ≤ Int.tdiv i64Min (d2 : Int) := by
  unfold i64Min
  rw [Int.neg_tdiv, Int.neg_tdiv]
  have e : ((2 : Int) ^ 63) = ((2 ^ 63 : Nat) : Int) := by norm_num
  rw [e, ← Int.ofNat_tdiv, ← Int.ofNat_tdiv]
  have : 2 ^ 63 / d2 ≤ 2 ^ 63 / d1 := Nat.div_le_div_left h12 (by omega)
  omega

theorem usizeToI64_small (n : Nat) (h : n < 2 ^ 63) : usizeToI64 n = (n : Int) := by
  unfold usizeToI64 usizeVal
  have hm : n % 2 ^ 64 = n := Nat.mod_eq_of_lt (by omega)
  rw [hm, if_pos h]

/-- Below 2 ^ 63 the home-place DifferentPlaceServices component is the
unwrapped, non-panicking quotient. -/
theorem dps_home_key_small (dps : Nat) (h : dps < 2 ^ 63) :
    (i64Div i64Min (usizeToI64 (max (usizeVal dps) 1))).getD 0
      = Int.tdiv i64Min ((max dps 1 : Nat) : Int) := by
  have hv : usizeVal dps = dps := Nat.mod_eq_of_lt (by omega)
  rw [hv]
  have hm : max dps 1 < 2 ^ 63 := by omega
  rw [usizeToI64_small _ hm]
  have h1 : (1 : Int) ≤ ((max dps 1 : Nat) : Int) := by
    exact_mod_cast Nat.le_max_right dps 1
  unfold i64Div
  rw [if_neg (by
    intro hc
    rcases hc with hc | hc
    · omega
    · rcases hc with ⟨_, hc2⟩
      omega)]
  rfl

/-- The model records the program's abort: at a usize counter of 2 ^ 64 - 1
the divisor wraps to -1 and the i64::MIN / -1 division panics. -/
theorem dps_home_key_panics_at_usize_max :
    i64Div i64Min (usizeToI64 (max (usizeVal (2 ^ 64 - 1)) 1)) = none := by decide

/-- C4 (amended): own-place dominance. With DifferentPlaceServices as the
sole sort rule, a candidate whose home place equals the slot place gets a
rank key strictly below that of any candidate whose home place differs,
regardless of all other counters of either candidate, provided both
candidates' different_place_services counters are below 2 ^ 63 (true in any
real run). From 2 ^ 63 on the usize-to-i64 cast wraps: the home candidate's
divisor becomes negative, making its key positive, an away candidate's key
becomes negative, and at usize::MAX the division panics. -/
theorem own_place_dominance (p q : PersonState) (groups : GroupArena)
    (date : Int) (placeId : String) (rules : Rules)
    (hr : rules.sort = [Rule.SortByDifferentPlaceServices])
    (hp : p.place = placeId) (hq : q.place ≠ placeId)
    (hbp : p.different_place_services < 2 ^ 63)
    (hbq : q.different_place_services < 2 ^ 63) :
    lexLt (sortKey p groups date placeId rules)
      (sortKey q groups date placeId rules) = true := by
  unfold sortKey
  rw [hr]
  simp only [List.map_cons, List.map_nil, sortKeyRule, hp, hq]
  rw [if_neg (by simp [hp]), if_pos hq, lexLt_singleton]
  rw [dps_home_key_small _ hbp, usizeToI64_small _ hbq]
  have h1 := i64Min_tdiv_le_neg_one (max p.different_place_services 1)
    (Nat.le_max_right _ _) (by omega)
  have h2 : (0 : Int) ≤ (q.different_place_services : Int) := Int.ofNat_nonneg _
  simp only [decide_eq_true_eq]
  omega

/-- C4, counterexample to the claim as stated: at different_place_services =
2 ^ 63 the home candidate's divisor `.max(1) as i64` wraps to i64::MIN, so
its key is i64::MIN / i64::MIN = 1, which is not below the away candidate's
key 0 — exactly what the program computes there. -/
theorem own_place_dominance_cex :
    lexLt
      (sortKey ⟨"p", "A", 0, none, [], [], 0, 2 ^ 63⟩ [] 0 "A"
        ⟨[Rule.SortByDifferentPlaceServices], []⟩)
      (sortKey ⟨"q", "B", 0, none, [], [], 0, 0⟩ [] 0 "A"
        ⟨[Rule.SortByDifferentPlaceServices], []⟩) = false := by decide

/-- C4, witness run of the amended theorem at a concrete input. -/
theorem own_place_dominance_witness :
    lexLt
      (sortKey ⟨"p", "A", 3, none, [], [], 0, 5⟩ [] 0 "A"
        ⟨[Rule.SortByDifferentPlaceServices], []⟩)
      (sortKey ⟨"q", "B", 0, none, [], [], 0, 7⟩ [] 0 "A"
        ⟨[Rule.SortByDifferentPlaceServices], []⟩) = true :=
  own_place_dominance ⟨"p", "A", 3, none, [], [], 0, 5⟩
    ⟨"q", "B", 0, none, [], [], 0, 7⟩ [] 0 "A"
    ⟨[Rule.SortByDifferentPlaceServices], []⟩ rfl rfl (by decide) (by decide)
    (by decide)

/-- C5 (amended): for the DifferentPlaceServices rule at a slot equal to the
person's own home place, with both different_place_services counters below
2 ^ 63 (true in any real run), more off-place history makes the key component
weakly GREATER (less negative), not smaller: the person with strictly fewer
different_place_services has a component less than or equal to the other's
(ties are possible, e.g. at 0 versus 1), making the person with more
off-place history weakly LESS eligible for the home slot. From 2 ^ 63 on the
wrapped cast instead yields positive keys, and at usize::MAX the division
panics. -/
theorem different_place_key_monotone (p q : PersonState) (groups : GroupArena)
    (date : Int) (placeId : String) (rules : Rules)
    (hr : rules.sort = [Rule.SortByDifferentPlaceServices])
    (hp : p.place = placeId) (hq : q.place = placeId)
    (hlt : p.different_place_services < q.different_place_services)
    (hb : q.different_place_services < 2 ^ 63) :
    lexLe (sortKey p groups date placeId rules)
      (sortKey q groups date placeId rules) = true := by
  unfold sortKey
  rw [hr]
  simp only [List.map_cons, List.map_nil, sortKeyRule]
  rw [if_neg (by simp [hp]), if_neg (by simp [hq]), lexLe_singleton]
  rw [dps_home_key_small _ (by omega), dps_home_key_small _ hb]
  have := i64Min_tdiv_mono (max p.different_place_services 1)
    (max q.different_place_services 1) (Nat.le_max_right _ _) (by omega)
  simp only [decide_eq_true_eq]
  exact this

/-- C5, counterexample to the claim as stated: two persons identical except
for different_place_services 1 versus 2, at their home place; the second
(more off-place history) person's component is NOT strictly smaller — it is
strictly greater (i64::MIN / 2 is less negative than i64::MIN / 1). -/
theorem different_place_key_cex :
    lexLt
      (sortKey ⟨"x", "A", 0, none, [], [], 0, 2⟩ [] 0 "A"
        ⟨[Rule.SortByDifferentPlaceServices], []⟩)
      (sortKey ⟨"x", "A", 0, none, [], [], 0, 1⟩ [] 0 "A"
        ⟨[Rule.SortByDifferentPlaceServices], []⟩) = false := by decide

/-- C5, witness run of the amended theorem at a concrete input (the tie case
0 versus 1). -/
theorem different_place_key_monotone_witness :
    lexLe
      (sortKey ⟨"x", "A", 0, none, [], [], 0, 0⟩ [] 0 "A"
        ⟨[Rule.SortByDifferentPlaceServices], []⟩)
      (sortKey ⟨"x", "A", 0, none, [], [], 0, 1⟩ [] 0 "A"
        ⟨[Rule.SortByDifferentPlaceServices], []⟩) = true :=
  different_place_key_monotone ⟨"x", "A", 0, none, [], [], 0, 0⟩
    ⟨"x", "A", 0, none, [], [], 0, 1⟩ [] 0 "A"
    ⟨[Rule.SortByDifferentPlaceServices], []⟩ rfl rfl rfl (by decide) (by decide)

/-- C6 (amended): weekly bucketing of the LastService component, for persons
who have served with nonnegative day numbers (AD dates): last services
exactly 10 days apart always produce different components, while services
exactly 3 days apart produce equal components exactly when no week-bucket
boundary falls between them (day number mod 7 below 4). -/
theorem last_service_bucket (p q : PersonState) (groups : GroupArena)
    (date : Int) (placeId : String) (rules : Rules) (a b : Int)
    (hr : rules.sort = [Rule.SortByLastService])
    (hp : p.last_service = some a) (hq : q.last_service = some b) (ha : 0 ≤ a) :
    (b = a + 10 →
      sortKey p groups date placeId rules ≠ sortKey q groups date placeId rules) ∧
    (b = a + 3 →
      (sortKey p groups date placeId rules = sortKey q groups date placeId rules
        ↔ a % 7 < 4)) := by
  unfold sortKey
  rw [hr]
  simp only [List.map_cons, List.map_nil, sortKeyRule, hp, hq]
  have hta : Int.tdiv a 7 = a / 7 := Int.tdiv_eq_ediv ha (by norm_num)
  constructor
  · intro hb
    subst hb
    have htb : Int.tdiv (a + 10) 7 = (a + 10) / 7 :=
      Int.tdiv_eq_ediv (by omega) (by norm_num)
    simp only [hta, htb, ne_eq, List.cons.injEq, and_true]
    omega
  · intro hb
    subst hb
    have htb : Int.tdiv (a + 3) 7 = (a + 3) / 7 :=
      Int.tdiv_eq_ediv (by omega) (by norm_num)
    simp only [hta, htb, List.cons.injEq, and_true]
    omega

/-- C6, counterexample to the claim as stated: last services on days 6 and 9
are exactly 3 days apart yet produce different LastService components, and
day numbers -5 and 5 (valid BC/AD dates) are exactly 10 days apart yet
produce equal components. -/
theorem last_service_bucket_cex :
    (sortKey ⟨"p", "A", 0, some 6, [], [], 0, 0⟩ [] 0 "A"
        ⟨[Rule.SortByLastService], []⟩
      ≠ sortKey ⟨"q", "A", 0, some 9, [], [], 0, 0⟩ [] 0 "A"
        ⟨[Rule.SortByLastService], []⟩) ∧
    (sortKey ⟨"p", "A", 0, some (-5), [], [], 0, 0⟩ [] 0 "A"
        ⟨[Rule.SortByLastService], []⟩
      = sortKey ⟨"q", "A", 0, some 5, [], [], 0, 0⟩ [] 0 "A"
        ⟨[Rule.SortByLastService], []⟩) := by
  constructor
  · decide
  · decide

/-- C6, witness run of the amended theorem at a concrete input. -/
theorem last_service_bucket_witness :
    sortKey ⟨"p", "A", 0, some 7, [], [], 0, 0⟩ [] 0 "A"
        ⟨[Rule.SortByLastService], []⟩
      ≠ sortKey ⟨"q", "A", 0, some 17, [], [], 0, 0⟩ [] 0 "A"
        ⟨[Rule.SortByLastService], []⟩ :=
  (last_service_bucket ⟨"p", "A", 0, some 7, [], [], 0, 0⟩
    ⟨"q", "A", 0, some 17, [], [], 0, 0⟩ [] 0 "A"
    ⟨[Rule.SortByLastService], []⟩ 7 17 rfl rfl rfl (by norm_num)).1 rfl

/-! Counter map lemmas with distinct keys (for the ledger invariant C3). -/

theorem mapGet_eq_zero_of_not_mem {K : Type} [DecidableEq K] :
    ∀ (m : List (K × Nat)) (k : K), k ∉ mapKeys m → mapGet m k = 0
  | [], _, _ => rfl
  | (k', v) :: rest, k, h => by
      simp only [mapKeys, List.map_cons, List.mem_cons, not_or] at h
      rw [mapGet, if_neg (fun hc => h.1 hc.symm)]
      exact mapGet_eq_zero_of_not_mem rest k
        (by simpa [mapKeys] using h.2)

theorem mem_keys_mapIncr {K : Type} [DecidableEq K] :
    ∀ (m : List (K × Nat)) (k x : K),
      x ∈ mapKeys (mapIncr m k) → x ∈ mapKeys m ∨ x = k
  | [], k, x, h => by
      simp only [mapIncr, mapKeys, List.map_cons, List.map_nil,
        List.mem_singleton] at h
      exact Or.inr h
  | (k', v) :: rest, k, x, h => by
      by_cases hk : k' = k
      · rw [mapIncr, if_pos hk] at h
        exact Or.inl h
      · rw [mapIncr, if_neg hk] at h
        simp only [mapKeys, List.map_cons, List.mem_cons] at h ⊢
        rcases h with h | h
        · exact Or.inl (Or.inl h)
        · rcases mem_keys_mapIncr rest k x h with h2 | h2
          · exact Or.inl (Or.inr h2)
          · exact Or.inr h2

theorem nodup_mapIncr {K : Type} [DecidableEq K] :
    ∀ (m : List (K × Nat)) (k : K), (mapKeys m).Nodup →
      (mapKeys (mapIncr m k)).Nodup
  | [], k, _ => by simp [mapIncr, mapKeys]
  | (k', v) :: rest, k, h => by
      simp only [mapKeys, List.map_cons, List.nodup_cons] at h
      by_cases hk : k' = k
      · rw [mapIncr, if_pos hk]
        simp only [mapKeys, List.map_cons, List.nodup_cons]
        exact h
      · rw [mapIncr, if_neg hk]
        simp only [mapKeys, List.map_cons, List.nodup_cons]
        refine ⟨?_, nodup_mapIncr rest k h.2⟩
        intro hc
        rcases mem_keys_mapIncr rest k k' hc with h2 | h2
        · exact h.1 h2
        · exact hk h2

theorem keys_mapDecr_sublist {K : Type} [DecidableEq K] :
    ∀ (m : List (K × Nat)) (k : K),
      List.Sublist (mapKeys (mapDecr m k)) (mapKeys m)
  | [], _ => List.Sublist.refl _
  | (k', v) :: rest, k => by
      by_cases hk : k' = k
      · by_cases hv : v > 0
        · by_cases hv1 : v - 1 = 0
          · rw [mapDecr, if_pos hk, if_pos hv, if_pos hv1]
            exact List.sublist_cons_self _ _
          · rw [mapDecr, if_pos hk, if_pos hv, if_neg hv1]
            simp only [mapKeys, List.map_cons]
            exact List.Sublist.refl _
        · rw [mapDecr, if_pos hk, if_neg hv]
      · rw [mapDecr, if_neg hk]
        simp only [mapKeys, List.map_cons]
        exact List.Sublist.cons₂ k' (keys_mapDecr_sublist rest k)

theorem nodup_mapDecr {K : Type} [DecidableEq K] (m : List (K × Nat)) (k : K)
    (h : (mapKeys m).Nodup) : (mapKeys (mapDecr m k)).Nodup :=
  List.Nodup.sublist (keys_mapDecr_sublist m k) h

theorem mapGet_mapDecr_self {K : Type} [DecidableEq K] :
    ∀ (m : List (K × Nat)) (k : K), (mapKeys m).Nodup → 1 ≤ mapGet m k →
      mapGet (mapDecr m k) k = mapGet m k - 1
  | [], k, _, hg => by simp [mapGet] at hg
  | (k', v) :: rest, k, hn, hg => by
      simp only [mapKeys, List.map_cons, List.nodup_cons] at hn
      by_cases hk : k' = k
      · have hv : 1 ≤ v := by simpa [mapGet, hk] using hg
        by_cases hv1 : v - 1 = 0
        · rw [mapDecr, if_pos hk, if_pos (by omega), if_pos hv1]
          rw [mapGet_eq_zero_of_not_mem rest k (hk ▸ hn.1)]
          rw [mapGet, if_pos hk]
          omega
        · rw [mapDecr, if_pos hk, if_pos (by omega), if_neg hv1]
          rw [mapGet, if_pos hk, mapGet, if_pos hk]
      · have hg2 : 1 ≤ mapGet rest k := by simpa [mapGet, hk] using hg
        rw [mapDecr, if_neg hk, mapGet, if_neg hk, mapGet, if_neg hk]
        exact mapGet_mapDecr_self rest k hn.2 hg2

theorem mapGet_mapDecr_ne {K : Type} [DecidableEq K] :
    ∀ (m : List (K × Nat)) (k x : K), k ≠ x →
      mapGet (mapDecr m k) x = mapGet m x
  | [], _, _, _ => rfl
  | (k', v) :: rest, k, x, h => by
      by_cases hk : k' = k
      · have hx : k' ≠ x := by rw [hk]; exact h
        by_cases hv : v > 0
        · by_cases hv1 : v - 1 = 0
          · rw [mapDecr, if_pos hk, if_pos hv, if_pos hv1, mapGet, if_neg hx]
          · rw [mapDecr, if_pos hk, if_pos hv, if_neg hv1, mapGet, if_neg hx,
              mapGet, if_neg hx]
        · rw [mapDecr, if_pos hk, if_neg hv]
      · rw [mapDecr, if_neg hk]
        by_cases hx : k' = x
        · rw [mapGet, if_pos hx, mapGet, if_pos hx]
        · rw [mapGet, if_neg hx, mapGet, if_neg hx]
          exact mapGet_mapDecr_ne rest k x h

/-! History-indexed reachability of PersonState ledgers (C3). -/

/-- Services recorded in a history with a given weekday. -/
def histWeekday (H : List (Int × String)) (w : Int) : Nat :=
  H.countP (fun e => decide (weekdayOf e.1 = w))

/-- Services recorded in a history at a given place. -/
def histPlace (H : List (Int × String)) (pl : String) : Nat :=
  H.countP (fun e => decide (e.2 = pl))

/-- Services recorded in a history away from a given home place. -/
def histDiff (H : List (Int × String)) (home : String) : Nat :=
  H.countP (fun e => decide (¬ e.2 = home))

/-- Full correspondence between a person's ledger and its outstanding
service history. -/
def goodLedger (p : PersonState) (H : List (Int × String)) : Prop :=
  (mapKeys p.weekday_counts).Nodup ∧
  (mapKeys p.place_counts).Nodup ∧
  p.total_services = H.length ∧
  sumVals p.weekday_counts = H.length ∧
  sumVals p.place_counts = H.length ∧
  (∀ w, mapGet p.weekday_counts w = histWeekday H w) ∧
  (∀ pl, mapGet p.place_counts pl = histPlace H pl) ∧
  p.different_place_services = histDiff H p.place

/-- Removal of the first occurrence of an element (history bookkeeping). -/
def eraseFirst {α : Type} [DecidableEq α] : List α → α → List α
  | [], _ => []
  | x :: xs, a => if x = a then xs else x :: eraseFirst xs a

theorem perm_cons_eraseFirst {α : Type} [DecidableEq α] {a : α} :
    ∀ {l : List α}, a ∈ l → l.Perm (a :: eraseFirst l a)
  | [], h => absurd h (List.not_mem_nil a)
  | x :: xs, h => by
      by_cases hx : x = a
      · subst hx
        rw [eraseFirst, if_pos rfl]
      · rw [eraseFirst, if_neg hx]
        have hmem : a ∈ xs := by
          rcases List.mem_cons.mp h with h1 | h1
          · exact absurd h1.symm hx
          · exact h1
        exact ((perm_cons_eraseFirst hmem).cons x).trans
          (List.Perm.swap a x (eraseFirst xs a))

/-- States reachable from PersonState::new by register_service and
unregister_service calls, indexed by the multiset of outstanding services:
each unregister_service call removes a still-outstanding previously
registered (date, place) pair. -/
inductive Reaches : PersonState → List (Int × String) → Prop where
  | init (name place : String) (gi : Nat) :
      Reaches (PersonState.new name place gi) []
  | reg {p : PersonState} {H : List (Int × String)} (d : Int) (pl : String)
      (h : Reaches p H) : Reaches (registerService p [] d pl).1 ((d, pl) :: H)
  | unreg {p : PersonState} {H : List (Int × String)} (d : Int) (pl : String)
      (h : Reaches p H) (hm : (d, pl) ∈ H) :
      Reaches (unregisterService p d pl) (eraseFirst H (d, pl))

theorem goodLedger_register (p : PersonState) (H : List (Int × String))
    (d : Int) (pl : String) (h : goodLedger p H) :
    goodLedger (registerService p [] d pl).1 ((d, pl) :: H) := by
  obtain ⟨hn1, hn2, ht, hs1, hs2, hw, hp, hd⟩ := h
  refine ⟨nodup_mapIncr _ _ hn1, nodup_mapIncr _ _ hn2, ?_, ?_, ?_, ?_, ?_, ?_⟩
  · simp only [registerService, List.length_cons]
    omega
  · simp only [registerService, sumVals_mapIncr, List.length_cons]
    omega
  · simp only [registerService, sumVals_mapIncr, List.length_cons]
    omega
  · intro w
    simp only [registerService, histWeekday, List.countP_cons]
    by_cases hww : weekdayOf d = w
    · rw [hww, mapGet_mapIncr_self]
      have := hw w
      simp only [histWeekday] at this
      simp [this]
    · rw [mapGet_mapIncr_ne _ _ _ hww]
      have := hw w
      simp only [histWeekday] at this
      simp [this, hww]
  · intro x
    simp only [registerService, histPlace, List.countP_cons]
    by_cases hxx : pl = x
    · rw [hxx, mapGet_mapIncr_self]
      have := hp x
      simp only [histPlace] at this
      simp [this]
    · rw [mapGet_mapIncr_ne _ _ _ hxx]
      have := hp x
      simp only [histPlace] at this
      simp [this, hxx]
  · simp only [registerService, histDiff, List.countP_cons]
    simp only [histDiff] at hd
    by_cases hpl : pl = p.place
    · rw [if_neg (by simp [hpl])]
      simp [hpl, hd]
    · rw [if_pos hpl]
      simp [hpl, hd]

theorem goodLedger_unregister (p : PersonState) (H : List (Int × String))
    (d : Int) (pl : String) (h : goodLedger p H) (hm : (d, pl) ∈ H) :
    goodLedger (unregisterService p d pl) (eraseFirst H (d, pl)) := by
  obtain ⟨hn1, hn2, ht, hs1, hs2, hw, hp, hd⟩ := h
  have hperm : H.Perm ((d, pl) :: eraseFirst H (d, pl)) :=
    perm_cons_eraseFirst hm
  have hlen : H.length = (eraseFirst H (d, pl)).length + 1 := by
    rw [hperm.length_eq]
    rfl
  have hwcount : ∀ w, histWeekday H w
      = histWeekday (eraseFirst H (d, pl)) w
        + (if weekdayOf d = w then 1 else 0) := by
    intro w
    simp only [histWeekday]
    rw [hperm.countP_eq, List.countP_cons]
    by_cases hww : weekdayOf d = w <;> simp [hww]
  have hpcount : ∀ x, histPlace H x
      = histPlace (eraseFirst H (d, pl)) x + (if pl = x then 1 else 0) := by
    intro x
    simp only [histPlace]
    rw [hperm.countP_eq, List.countP_cons]
    by_cases hxx : pl = x <;> simp [hxx]
  have hdcount : histDiff H p.place
      = histDiff (eraseFirst H (d, pl)) p.place
        + (if pl = p.place then 0 else 1) := by
    simp only [histDiff]
    rw [hperm.countP_eq, List.countP_cons]
    by_cases hxx : pl = p.place <;> simp [hxx]
  have hwpos : 1 ≤ mapGet p.weekday_counts (weekdayOf d) := by
    rw [hw]
    have hpos : 0 < histWeekday H (weekdayOf d) := by
      simp only [histWeekday]
      rw [List.countP_pos_iff]
      exact ⟨(d, pl), hm, by simp⟩
    omega
  have hppos : 1 ≤ mapGet p.place_counts pl := by
    rw [hp]
    have hpos : 0 < histPlace H pl := by
      simp only [histPlace]
      rw [List.countP_pos_iff]
      exact ⟨(d, pl), hm, by simp⟩
    omega
  refine ⟨nodup_mapDecr _ _ hn1, nodup_mapDecr _ _ hn2, ?_, ?_, ?_, ?_, ?_, ?_⟩
  · simp only [unregisterService]
    rw [if_pos (by omega)]
    omega
  · simp only [unregisterService]
    have := sumVals_mapDecr p.weekday_counts (weekdayOf d) hwpos
    omega
  · simp only [unregisterService]
    have := sumVals_mapDecr p.place_counts pl hppos
    omega
  · intro w
    simp only [unregisterService]
    by_cases hww : weekdayOf d = w
    · subst hww
      rw [mapGet_mapDecr_self _ _ hn1 hwpos, hw]
      have := hwcount (weekdayOf d)
      simp only [eq_self_iff_true, if_true] at this
      omega
    · rw [mapGet_mapDecr_ne _ _ _ hww, hw]
      have := hwcount w
      rw [if_neg hww] at this
      omega
  · intro x
    simp only [unregisterService]
    by_cases hxx : pl = x
    · subst hxx
      rw [mapGet_mapDecr_self _ _ hn2 hppos, hp]
      have := hpcount pl
      simp only [eq_self_iff_true, if_true] at this
      omega
    · rw [mapGet_mapDecr_ne _ _ _ hxx, hp]
      have := hpcount x
      rw [if_neg hxx] at this
      omega
  · simp only [unregisterService]
    by_cases hxx : pl = p.place
    · rw [if_neg (by simp [hxx])]
      rw [hdcount, if_pos hxx] at hd
      omega
    · have hdpos : 1 ≤ p.different_place_services := by
        rw [hd, hdcount, if_neg hxx]
        omega
      rw [if_pos ⟨hxx, by omega⟩]
      rw [hdcount, if_neg hxx] at hd
      omega

theorem reaches_goodLedger (p : PersonState) (H : List (Int × String))
    (h : Reaches p H) : goodLedger p H := by
  induction h with
  | init name place gi =>
      refine ⟨List.nodup_nil, List.nodup_nil, rfl, rfl, rfl, ?_, ?_, rfl⟩
      · intro w; rfl
      · intro x; rfl
  | reg d pl h ih => exact goodLedger_register _ _ d pl ih
  | unreg d pl h hm ih => exact goodLedger_unregister _ _ d pl ih hm

/-- C3 (amended): every PersonState reachable from PersonState::new by a
finite sequence of register_service and unregister_service calls in which
each unregister_service removes a previously registered, still-outstanding
(date, place) pair satisfies the ledger invariant: total_services equals the
sum of the weekday_counts values and the sum of the place_counts values, and
different_place_services is at most total_services. (With fully arbitrary
unregister arguments the invariant fails; see the counterexample.) -/
theorem reachable_ledger_invariant (p : PersonState)
    (H : List (Int × String)) (h : Reaches p H) :
    p.total_services = sumVals p.weekday_counts ∧
    p.total_services = sumVals p.place_counts ∧
    p.different_place_services ≤ p.total_services := by
  obtain ⟨_, _, ht, hs1, hs2, _, _, hd⟩ := reaches_goodLedger p H h
  refine ⟨by omega, by omega, ?_⟩
  rw [ht, hd]
  exact List.countP_le_length _

/-- C3, counterexample to the claim as stated: registering on day 0 and then
unregistering with a different date argument (day 1, a different weekday) at
the same place leaves total_services at 0 but the weekday_counts sum at 1,
violating the invariant after a perfectly legal call sequence with arbitrary
arguments. -/
theorem ledger_invariant_cex :
    ¬ ((unregisterService (registerService (PersonState.new "x" "A" 0) [] 0 "A").1
          1 "A").total_services
        = sumVals (unregisterService
            (registerService (PersonState.new "x" "A" 0) [] 0 "A").1
            1 "A").weekday_counts) := by decide

/-- C3, witness run of the amended theorem on a concrete reachable state. -/
theorem reachable_ledger_invariant_witness :
    (registerService (PersonState.new "x" "A" 0) [] 5 "B").1.total_services
        = sumVals (registerService (PersonState.new "x" "A" 0) [] 5 "B").1.weekday_counts ∧
    (registerService (PersonState.new "x" "A" 0) [] 5 "B").1.total_services
        = sumVals (registerService (PersonState.new "x" "A" 0) [] 5 "B").1.place_counts ∧
    (registerService (PersonState.new "x" "A" 0) [] 5 "B").1.different_place_services
        ≤ (registerService (PersonState.new "x" "A" 0) [] 5 "B").1.total_services :=
  reachable_ledger_invariant _ _ (Reaches.reg 5 "B" (Reaches.init "x" "A" 0))

/-! swap_assignments (C8, C9). -/

/-- Placeholder assignment used as the default of total list lookups. -/
def dummyAssignment : Assignment := ⟨0, "", ""⟩

theorem findIdxP_lt {α : Type} (pred : α → Bool) :
    ∀ (l : List α) (i : Nat), findIdxP pred l = some i → i < l.length
  | [], i, h => by simp [findIdxP] at h
  | x :: xs, i, h => by
      by_cases hp : pred x
      · rw [findIdxP, if_pos hp] at h
        simp only [Option.some.injEq] at h
        simp [← h]
      · rw [findIdxP, if_neg hp] at h
        cases hfi : findIdxP pred xs with
        | none => rw [hfi] at h; exact Option.noConfusion h
        | some j =>
            rw [hfi] at h
            simp at h
            subst h
            have := findIdxP_lt pred xs j hfi
            simp only [List.length_cons]
            omega

theorem findIdxP_getD {α : Type} (d : α) (pred : α → Bool) :
    ∀ (l : List α) (i : Nat), findIdxP pred l = some i →
      pred (l.getD i d) = true
  | [], i, h => by simp [findIdxP] at h
  | x :: xs, i, h => by
      by_cases hp : pred x
      · rw [findIdxP, if_pos hp] at h
        simp only [Option.some.injEq] at h
        rw [← h]
        exact hp
      · rw [findIdxP, if_neg hp] at h
        cases hfi : findIdxP pred xs with
        | none => rw [hfi] at h; exact Option.noConfusion h
        | some j =>
            rw [hfi] at h
            simp at h
            subst h
            exact findIdxP_getD d pred xs j hfi

theorem getD_map_lt {α β : Type} (f : α → β) (d : α) (e : β) :
    ∀ (l : List α) (k : Nat), k < l.length →
      (l.map f).getD k e = f (l.getD k d)
  | [], k, h => by simp at h
  | x :: xs, 0, _ => rfl
  | x :: xs, k + 1, h => by
      simpa using getD_map_lt f d e xs k (by simpa using h)

theorem registerService_fst_arena (p : PersonState) (g g' : GroupArena)
    (d : Int) (pl : String) :
    (registerService p g d pl).1 = (registerService p g' d pl).1 := rfl

theorem swapFound_aux (d1 : Int) (p1 : String) (d2 : Int) (p2 : String) :
    ∀ (A : List Assignment) (f1 f2 : Bool),
      A.foldl (fun f a =>
        if a.date = d1 ∧ a.place = p1 then (true, f.2)
        else if a.date = d2 ∧ a.place = p2 then (f.1, true) else f) (f1, f2)
      = (f1 || A.any (fun a => decide (a.date = d1 ∧ a.place = p1)),
          f2 || A.any (fun a =>
            decide (¬(a.date = d1 ∧ a.place = p1) ∧ a.date = d2 ∧ a.place = p2)))
  | [], f1, f2 => by simp
  | a :: A, f1, f2 => by
      by_cases h1 : a.date = d1 ∧ a.place = p1
      · simp only [List.foldl_cons, if_pos h1]
        rw [swapFound_aux d1 p1 d2 p2 A true f2]
        simp [h1]
      · by_cases h2 : a.date = d2 ∧ a.place = p2
        · simp only [List.foldl_cons, if_neg h1, if_pos h2]
          rw [swapFound_aux d1 p1 d2 p2 A f1 true]
          have hb1 : (decide (a.date = d1) && decide (a.place = p1)) = false := by
            rcases not_and_or.mp h1 with h | h <;> simp [h]
          have hb2 : ((!decide (a.date = d1) || !decide (a.place = p1))
              && (decide (a.date = d2) && decide (a.place = p2))) = true := by
            rcases not_and_or.mp h1 with h | h
            · rw [h2.1] at h
              simp [h, h2.1, h2.2]
            · rw [h2.2] at h
              simp [h, h2.1, h2.2]
          simp [hb1, hb2]
        · simp only [List.foldl_cons, if_neg h1, if_neg h2]
          rw [swapFound_aux d1 p1 d2 p2 A f1 f2]
          have hb1 : (decide (a.date = d1) && decide (a.place = p1)) = false := by
            rcases not_and_or.mp h1 with h | h <;> simp [h]
          have hb2 : ((!decide (a.date = d1) || !decide (a.place = p1))
              && (decide (a.date = d2) && decide (a.place = p2))) = false := by
            rcases not_and_or.mp h2 with h | h <;> simp [h]
          simp [hb1, hb2]

theorem swapFound_eq (A : List Assignment) (d1 : Int) (p1 : String) (d2 : Int)
    (p2 : String) :
    swapFound A d1 p1 d2 p2
      = (A.any (fun a => decide (a.date = d1 ∧ a.place = p1)),
          A.any (fun a =>
            decide (¬(a.date = d1 ∧ a.place = p1) ∧ a.date = d2 ∧ a.place = p2))) := by
  unfold swapFound
  rw [swapFound_aux]
  simp

theorem swapAssignments_not_found (A : List Assignment)
    (people : List PersonState) (groups : GroupArena) (d1 : Int) (p1 : String)
    (n1 : String) (d2 : Int) (p2 : String) (n2 : String)
    (hf : ((swapFound A d1 p1 d2 p2).1 && (swapFound A d1 p1 d2 p2).2) = false) :
    swapAssignments A people groups d1 p1 n1 d2 p2 n2
      = (false, A, people, groups) := by
  unfold swapAssignments
  rw [hf]
  simp

theorem swapAssignments_found (A : List Assignment) (people : List PersonState)
    (groups : GroupArena) (d1 : Int) (p1 : String) (n1 : String) (d2 : Int)
    (p2 : String) (n2 : String) {i1 i2 : Nat}
    (hf : ((swapFound A d1 p1 d2 p2).1 && (swapFound A d1 p1 d2 p2).2) = true)
    (h1 : findIdxP (fun q => decide (q.name = n1)) people = some i1)
    (h2 : findIdxP (fun q => decide (q.name = n2)) people = some i2) :
    swapAssignments A people groups d1 p1 n1 d2 p2 n2
      = (true, swapUpdateAssignments A d1 p1 n1 d2 p2 n2,
          swapPeople people groups d1 p1 d2 p2 i1 i2) := by
  unfold swapAssignments
  rw [hf, h1, h2]
  simp

theorem unregAt_length (people : List PersonState) (i : Nat) (d : Int)
    (pl : String) : (unregAt people i d pl).length = people.length :=
  List.length_set ..

theorem regAt_length (people : List PersonState) (groups : GroupArena)
    (i : Nat) (d : Int) (pl : String) :
    (regAt people groups i d pl).1.length = people.length :=
  List.length_set ..

theorem unregAt_getD_self (people : List PersonState) (i : Nat) (d : Int)
    (pl : String) (hi : i < people.length) :
    (unregAt people i d pl).getD i dummyPerson
      = unregisterService (people.getD i dummyPerson) d pl :=
  getD_set_self dummyPerson people i _ hi

theorem unregAt_getD_ne (people : List PersonState) (i j : Nat) (d : Int)
    (pl : String) (hij : i ≠ j) :
    (unregAt people i d pl).getD j dummyPerson = people.getD j dummyPerson :=
  getD_set_ne dummyPerson people i j _ hij

theorem regAt_getD_self (people : List PersonState) (groups : GroupArena)
    (i : Nat) (d : Int) (pl : String) (hi : i < people.length) :
    (regAt people groups i d pl).1.getD i dummyPerson
      = (registerService (people.getD i dummyPerson) groups d pl).1 :=
  getD_set_self dummyPerson people i _ hi

theorem regAt_getD_ne (people : List PersonState) (groups : GroupArena)
    (i j : Nat) (d : Int) (pl : String) (hij : i ≠ j) :
    (regAt people groups i d pl).1.getD j dummyPerson = people.getD j dummyPerson :=
  getD_set_ne dummyPerson people i j _ hij

theorem swapPeople_spec (people : List PersonState) (groups : GroupArena)
    (d1 : Int) (p1 : String) (d2 : Int) (p2 : String) (i1 i2 : Nat)
    (hi1 : i1 < people.length) (hi2 : i2 < people.length) (hne : i1 ≠ i2) :
    (swapPeople people groups d1 p1 d2 p2 i1 i2).1.getD i1 dummyPerson
      = (registerService (unregisterService (people.getD i1 dummyPerson) d1 p1)
          groups d2 p2).1 ∧
    (swapPeople people groups d1 p1 d2 p2 i1 i2).1.getD i2 dummyPerson
      = (registerService (unregisterService (people.getD i2 dummyPerson) d2 p2)
          groups d1 p1).1 ∧
    ∀ k, k ≠ i1 → k ≠ i2 →
      (swapPeople people groups d1 p1 d2 p2 i1 i2).1.getD k dummyPerson
        = people.getD k dummyPerson := by
  have hlu1 : (unregAt people i1 d1 p1).length = people.length :=
    unregAt_length ..
  have hlu2 :
      (unregAt (unregAt people i1 d1 p1) i2 d2 p2).length = people.length := by
    rw [unregAt_length, hlu1]
  have hlr1 :
      (regAt (unregAt (unregAt people i1 d1 p1) i2 d2 p2) groups i1 d2 p2).1.length
        = people.length := by
    rw [regAt_length, hlu2]
  have hXi1 :
      (unregAt (unregAt people i1 d1 p1) i2 d2 p2).getD i1 dummyPerson
        = unregisterService (people.getD i1 dummyPerson) d1 p1 := by
    rw [unregAt_getD_ne _ _ _ _ _ (Ne.symm hne), unregAt_getD_self _ _ _ _ hi1]
  have hXi2 :
      (unregAt (unregAt people i1 d1 p1) i2 d2 p2).getD i2 dummyPerson
        = unregisterService (people.getD i2 dummyPerson) d2 p2 := by
    rw [unregAt_getD_self _ _ _ _ (by rw [hlu1]; exact hi2),
      unregAt_getD_ne _ _ _ _ _ hne]
  refine ⟨?_, ?_, ?_⟩
  · show (regAt _ _ i2 d1 p1).1.getD i1 dummyPerson = _
    rw [regAt_getD_ne _ _ _ _ _ _ (Ne.symm hne),
      regAt_getD_self _ _ _ _ _ (by rw [hlu2]; exact hi1), hXi1]
  · show (regAt _ _ i2 d1 p1).1.getD i2 dummyPerson = _
    rw [regAt_getD_self _ _ _ _ _ (by rw [hlr1]; exact hi2),
      regAt_getD_ne _ _ _ _ _ _ hne, hXi2]
    exact registerService_fst_arena ..
  · intro k hk1 hk2
    show (regAt _ _ i2 d1 p1).1.getD k dummyPerson = _
    rw [regAt_getD_ne _ _ _ _ _ _ (fun hc => hk2 hc.symm),
      regAt_getD_ne _ _ _ _ _ _ (fun hc => hk1 hc.symm),
      unregAt_getD_ne _ _ _ _ _ (fun hc => hk2 hc.symm),
      unregAt_getD_ne _ _ _ _ _ (fun hc => hk1 hc.symm)]

theorem swapUpdateAssignments_getD (A : List Assignment) (d1 : Int)
    (p1 : String) (n1 : String) (d2 : Int) (p2 : String) (n2 : String)
    (k : Nat) (hk : k < A.length) :
    (swapUpdateAssignments A d1 p1 n1 d2 p2 n2).getD k dummyAssignment
      = (if (A.getD k dummyAssignment).date = d1
            ∧ (A.getD k dummyAssignment).place = p1
          then { A.getD k dummyAssignment with person := n2 }
          else if (A.getD k dummyAssignment).date = d2
            ∧ (A.getD k dummyAssignment).place = p2
          then { A.getD k dummyAssignment with person := n1 }
          else A.getD k dummyAssignment) := by
  unfold swapUpdateAssignments
  exact getD_map_lt _ dummyAssignment dummyAssignment A k hk

/-- C8: swapping two distinct, occupied slots whose assigned names are the
given two distinct person names, both present in the people list, returns
true, exchanges the two slots' persons in the assignment list entry by entry,
applies the old slot's unregister_service and the new slot's register_service
to each of the two affected persons, and leaves every other person's ledger
unchanged. -/
theorem swap_assignments_ok (A : List Assignment) (people : List PersonState)
    (groups : GroupArena) (d1 : Int) (p1 : String) (n1 : String) (d2 : Int)
    (p2 : String) (n2 : String) (i1 i2 : Nat)
    (hslot : ¬(d1 = d2 ∧ p1 = p2))
    (ha1 : ∃ a ∈ A, a.date = d1 ∧ a.place = p1 ∧ a.person = n1)
    (ha2 : ∃ a ∈ A, a.date = d2 ∧ a.place = p2 ∧ a.person = n2)
    (h1 : findIdxP (fun q => decide (q.name = n1)) people = some i1)
    (h2 : findIdxP (fun q => decide (q.name = n2)) people = some i2)
    (hnn : n1 ≠ n2) :
    (swapAssignments A people groups d1 p1 n1 d2 p2 n2).1 = true ∧
    (∀ k, k < A.length →
      ((A.getD k dummyAssignment).date = d1
          ∧ (A.getD k dummyAssignment).place = p1 →
        (swapAssignments A people groups d1 p1 n1 d2 p2 n2).2.1.getD k dummyAssignment
          = { A.getD k dummyAssignment with person := n2 }) ∧
      (¬((A.getD k dummyAssignment).date = d1
          ∧ (A.getD k dummyAssignment).place = p1) →
        (A.getD k dummyAssignment).date = d2
          ∧ (A.getD k dummyAssignment).place = p2 →
        (swapAssignments A people groups d1 p1 n1 d2 p2 n2).2.1.getD k dummyAssignment
          = { A.getD k dummyAssignment with person := n1 }) ∧
      (¬((A.getD k dummyAssignment).date = d1
          ∧ (A.getD k dummyAssignment).place = p1) →
        ¬((A.getD k dummyAssignment).date = d2
          ∧ (A.getD k dummyAssignment).place = p2) →
        (swapAssignments A people groups d1 p1 n1 d2 p2 n2).2.1.getD k dummyAssignment
          = A.getD k dummyAssignment)) ∧
    i1 ≠ i2 ∧
    (swapAssignments A people groups d1 p1 n1 d2 p2 n2).2.2.1.getD i1 dummyPerson
      = (registerService (unregisterService (people.getD i1 dummyPerson) d1 p1)
          groups d2 p2).1 ∧
    (swapAssignments A people groups d1 p1 n1 d2 p2 n2).2.2.1.getD i2 dummyPerson
      = (registerService (unregisterService (people.getD i2 dummyPerson) d2 p2)
          groups d1 p1).1 ∧
    (∀ k, k ≠ i1 → k ≠ i2 →
      (swapAssignments A people groups d1 p1 n1 d2 p2 n2).2.2.1.getD k dummyPerson
        = people.getD k dummyPerson) := by
  have hf : ((swapFound A d1 p1 d2 p2).1 && (swapFound A d1 p1 d2 p2).2) = true := by
    rw [swapFound_eq]
    obtain ⟨a1, ha1m, hd1, hq1, _⟩ := ha1
    obtain ⟨a2, ha2m, hd2, hq2, _⟩ := ha2
    simp only [Bool.and_eq_true, List.any_eq_true, decide_eq_true_eq]
    refine ⟨⟨a1, ha1m, hd1, hq1⟩, ⟨a2, ha2m, ?_, hd2, hq2⟩⟩
    intro hcon
    exact hslot ⟨hcon.1.symm.trans hd2, hcon.2.symm.trans hq2⟩
  have hidx1 := findIdxP_lt _ _ _ h1
  have hidx2 := findIdxP_lt _ _ _ h2
  have hname1 : (people.getD i1 dummyPerson).name = n1 := by
    have := findIdxP_getD dummyPerson _ _ _ h1
    simpa using this
  have hname2 : (people.getD i2 dummyPerson).name = n2 := by
    have := findIdxP_getD dummyPerson _ _ _ h2
    simpa using this
  have hii : i1 ≠ i2 := by
    intro hc
    exact hnn (by rw [← hname1, hc, hname2])
  have heq := swapAssignments_found A people groups d1 p1 n1 d2 p2 n2 hf h1 h2
  obtain ⟨hWs1, hWs2, hWo⟩ :=
    swapPeople_spec people groups d1 p1 d2 p2 i1 i2 hidx1 hidx2 hii
  refine ⟨by rw [heq], ?_, hii, ?_, ?_, ?_⟩
  · intro k hk
    refine ⟨?_, ?_, ?_⟩
    · intro hm1
      rw [heq]
      show (swapUpdateAssignments A d1 p1 n1 d2 p2 n2).getD k dummyAssignment = _
      rw [swapUpdateAssignments_getD A d1 p1 n1 d2 p2 n2 k hk, if_pos hm1]
    · intro hm1 hm2
      rw [heq]
      show (swapUpdateAssignments A d1 p1 n1 d2 p2 n2).getD k dummyAssignment = _
      rw [swapUpdateAssignments_getD A d1 p1 n1 d2 p2 n2 k hk, if_neg hm1,
        if_pos hm2]
    · intro hm1 hm2
      rw [heq]
      show (swapUpdateAssignments A d1 p1 n1 d2 p2 n2).getD k dummyAssignment = _
      rw [swapUpdateAssignments_getD A d1 p1 n1 d2 p2 n2 k hk, if_neg hm1,
        if_neg hm2]
  · rw [heq]
    exact hWs1
  · rw [heq]
    exact hWs2
  · intro k hk1 hk2
    rw [heq]
    exact hWo k hk1 hk2

/-- C8, witness run of the theorem at a concrete input. -/
theorem swap_assignments_ok_witness :
    (swapAssignments [⟨1, "A", "n1"⟩, ⟨2, "B", "n2"⟩]
      [PersonState.new "n1" "A" 0, PersonState.new "n2" "B" 0] [⟨none⟩]
      1 "A" "n1" 2 "B" "n2").1 = true :=
  (swap_assignments_ok [⟨1, "A", "n1"⟩, ⟨2, "B", "n2"⟩]
    [PersonState.new "n1" "A" 0, PersonState.new "n2" "B" 0] [⟨none⟩]
    1 "A" "n1" 2 "B" "n2" 0 1 (by decide) (by decide) (by decide) (by decide)
    (by decide) (by decide)).1

/-- C9 (amended): swap_assignments returns true exactly when the list has an
entry matching slot 1 and an entry that does NOT match slot 1 but matches
slot 2 (so identical requested slots always yield false, even with duplicate
entries); whenever it returns false, the assignment list and the people are
returned unchanged. -/
theorem swap_found_iff (A : List Assignment) (people : List PersonState)
    (groups : GroupArena) (d1 : Int) (p1 : String) (n1 : String) (d2 : Int)
    (p2 : String) (n2 : String) :
    ((swapAssignments A people groups d1 p1 n1 d2 p2 n2).1 = true ↔
      ((∃ a ∈ A, a.date = d1 ∧ a.place = p1) ∧
        ∃ a ∈ A, ¬(a.date = d1 ∧ a.place = p1) ∧ a.date = d2 ∧ a.place = p2)) ∧
    ((swapAssignments A people groups d1 p1 n1 d2 p2 n2).1 = false →
      (swapAssignments A people groups d1 p1 n1 d2 p2 n2).2.1 = A ∧
      (swapAssignments A people groups d1 p1 n1 d2 p2 n2).2.2.1 = people) := by
  have hfst : (swapAssignments A people groups d1 p1 n1 d2 p2 n2).1
      = ((swapFound A d1 p1 d2 p2).1 && (swapFound A d1 p1 d2 p2).2) := rfl
  constructor
  · rw [hfst, swapFound_eq]
    simp only [Bool.and_eq_true, List.any_eq_true, decide_eq_true_eq]
  · intro hfalse
    rw [hfst] at hfalse
    rw [swapAssignments_not_found A people groups d1 p1 n1 d2 p2 n2 hfalse]
    exact ⟨rfl, rfl⟩

/-- C9, counterexample to the claim as stated: with two duplicate entries
both at slot (0, P) and the two requested slots identical, the list does
contain an entry matching slot 1 and a DIFFERENT entry matching slot 2, yet
swap_assignments returns false (the else-if never sets the second flag). -/
theorem swap_found_cex :
    ¬ (((swapAssignments [⟨0, "P", "X"⟩, ⟨0, "P", "X"⟩] [] [] 0 "P" "X"
          0 "P" "X").1 = true)
      ↔ ∃ i ∈ ([0, 1] : List Nat), ∃ j ∈ ([0, 1] : List Nat), i ≠ j ∧
          ((([⟨0, "P", "X"⟩, ⟨0, "P", "X"⟩] : List Assignment).getD i
              dummyAssignment).date = 0 ∧
            (([⟨0, "P", "X"⟩, ⟨0, "P", "X"⟩] : List Assignment).getD i
              dummyAssignment).place = "P") ∧
          ((([⟨0, "P", "X"⟩, ⟨0, "P", "X"⟩] : List Assignment).getD j
              dummyAssignment).date = 0 ∧
            (([⟨0, "P", "X"⟩, ⟨0, "P", "X"⟩] : List Assignment).getD j
              dummyAssignment).place = "P")) := by
  decide

/-- C9, witness run of the amended theorem at a concrete input: a single
entry and identical requested slots give false and leave the list unchanged. -/
theorem swap_found_iff_witness :
    (swapAssignments [⟨0, "P", "X"⟩] [] [] 0 "P" "X" 0 "P" "X").2.1
      = [⟨0, "P", "X"⟩] :=
  ((swap_found_iff [⟨0, "P", "X"⟩] [] [] 0 "P" "X" 0 "P" "X").2 (by decide)).1

/-- Concrete configuration used by witness runs: one group with two members
at place A, exception date 3, sorting by least services. -/
def cfgW : Config :=
  ⟨⟨0, 10, [3], []⟩, ⟨["A"]⟩, [⟨"G", "A", [⟨"alice"⟩, ⟨"bob"⟩]⟩],
    ⟨[Rule.SortByLeastServices], []⟩⟩

/-- C7, witness run of the theorem at a concrete input: the run over dates
1 and 3 (the latter an exception) emits the date-1 assignment, whose date is
not in the exception list. -/
theorem exception_respect_witness :
    (⟨1, "A", "alice G"⟩ : Assignment) ∈ (createSchedule [1, 3] cfgW (fun _ => [])).1 ∧
    (⟨1, "A", "alice G"⟩ : Assignment).date ∉ cfgW.dates.exceptions :=
  ⟨by decide,
    exception_respect [1, 3] cfgW (fun _ => []) ⟨1, "A", "alice G"⟩ (by decide)⟩

/-- C10, witness run of the theorem at a concrete input: dates 1 and 3 with
3 an exception and one place yield exactly one assignment. -/
theorem full_assignment_count_witness :
    (createSchedule [1, 3] cfgW (fun _ => [])).1.length = 1 :=
  (full_assignment_count [1, 3] cfgW (fun _ => []) (by decide) (by decide)).trans
    (by decide)
